import Mathlib

/-!
Verification of the core of `zman.py`, the ZOIA patch manager: the patch
data model, the preference merge, the slot-allocation loops of `copy_files`,
the preferred-index report of `config_stats`, and the config round trip.

Python-specific behaviour is modelled explicitly where it matters:
list indexing accepts negative indices (wrapping from the end) and raises
`IndexError` outside `[-len, len)`; subscripting a dataclass raises
`TypeError`; `if x:` on an `Optional[int]` is truthiness, so both `None`
and `0` fail the test.  `print` side effects are reduced to the data they
carry (the capacity warning becomes a returned flag).
-/

set_option linter.unusedVariables false

/-- One patch record: the `@dataclass PatchFile` of `zman.py`.  Python
integers are unbounded, hence `Int` for `preferred_index`. -/
structure PatchFile where
  full_path : String
  file_name : String
  name : String
  active : Bool
  preferred_index : Option Int
deriving DecidableEq, Repr

/-- The dict comprehension `{x.full_path: x for x in override_patch_files}`
of `merge_patch_files`, as a lookup function: a later list element with the
same key overwrites an earlier one. -/
def override_paths (override_patch_files : List PatchFile) (p : String) : Option PatchFile :=
  override_patch_files.foldl (fun acc x => if x.full_path = p then some x else acc) none

/-- `merge_patch_files`: replace each record of `patch_files` by the record
of `override_patch_files` with the same `full_path`, when one exists. -/
def merge_patch_files (patch_files override_patch_files : List PatchFile) : List PatchFile :=
  patch_files.map (fun pf =>
    match override_paths override_patch_files pf.full_path with
    | some x => x
    | none => pf)

/-- The fixed slot capacity: `page_size = 64` in `copy_files`. -/
def page_size : Nat := 64

/-- Python list indexing for a list of length `n`: non-negative indices
below `n` are used as is, indices in `[-n, -1]` wrap to `n + i`, and
anything else raises `IndexError` (modelled as `none`). -/
def pyListIndex (n : Nat) (i : Int) : Option Nat :=
  if 0 ≤ i ∧ i < (n : Int) then some i.toNat
  else if -(n : Int) ≤ i ∧ i < 0 then some (i + n).toNat
  else none

/-- The mutable state of the first loop of `copy_files`: the slot table
`patch_order` (initially `[None]*64`), the deque `unordered_patches`, the
running `count`, and whether the capacity warning has been printed. -/
structure AllocState where
  patch_order : List (Option PatchFile)
  unordered_patches : List PatchFile
  count : Nat
  warned : Bool
deriving DecidableEq, Repr

/-- The state of `copy_files` just before its first loop. -/
def initState : AllocState :=
  { patch_order := List.replicate page_size none
    unordered_patches := []
    count := 1
    warned := false }

/-- The first loop of `copy_files`.  Per iteration: break (printing the
capacity warning) once `count > page_size`; skip inactive patches — but
under `verbose` the source evaluates `pf['name']` on a dataclass, which
raises `TypeError`; place a patch whose `preferred_index` is not `None`
into a still-empty preferred cell (Python indexing, so a negative index
wraps and an index outside `[-64, 64)` raises `IndexError`); otherwise
append it to `unordered_patches`. -/
def placeLoop (verbose : Bool) : List PatchFile → AllocState → Except String AllocState
  | [], st => .ok st
  | pf :: rest, st =>
    if page_size < st.count then
      .ok { st with warned := true }
    else if pf.active = false then
      if verbose then
        .error "TypeError: PatchFile object is not subscriptable"
      else
        placeLoop verbose rest st
    else
      match pf.preferred_index with
      | some k =>
        match pyListIndex st.patch_order.length k with
        | none => .error "IndexError: list index out of range"
        | some j =>
          if st.patch_order[j]? = some none then
            placeLoop verbose rest
              { st with
                  patch_order := st.patch_order.set j (some pf)
                  count := st.count + 1 }
          else
            placeLoop verbose rest
              { st with
                  unordered_patches := st.unordered_patches ++ [pf]
                  count := st.count + 1 }
      | none =>
        placeLoop verbose rest
          { st with
              unordered_patches := st.unordered_patches ++ [pf]
              count := st.count + 1 }

/-- The second loop of `copy_files`: walk the cells in ascending order,
fill each still-empty cell with the next queued patch, and stop as soon as
the queue is empty.  The source walks indices `0 .. page_size-1` over the
length-`page_size` table; this walks the same table structurally. -/
def fillLoop : List (Option PatchFile) → List PatchFile → List (Option PatchFile)
  | slots, [] => slots
  | [], _ :: _ => []
  | none :: rest, p :: q => some p :: fillLoop rest q
  | some pf :: rest, p :: q => some pf :: fillLoop rest (p :: q)

/-- `copy_files`, modelled up to (not including) the filesystem copy pass:
the final slot table is what the copy pass consumes.  Returns the table and
whether the capacity warning was printed, or the uncaught Python exception. -/
def copy_files (patch_files : List PatchFile) (verbose : Bool) :
    Except String (List (Option PatchFile) × Bool) :=
  match placeLoop verbose patch_files initState with
  | .error e => .error e
  | .ok st => .ok (fillLoop st.patch_order st.unordered_patches, st.warned)

/-- Insertion-ordered association map modelling the Python dict built by
`get_preferred_index_patches`: append `n` at key `k`, creating the key at
the end when absent. -/
def appendAt : List (Int × List String) → Int → String → List (Int × List String)
  | [], k, n => [(k, [n])]
  | (k0, ns) :: rest, k, n =>
    if k0 = k then (k0, ns ++ [n]) :: rest else (k0, ns) :: appendAt rest k n

/-- Key lookup in the association map. -/
def lookupKey : List (Int × List String) → Int → Option (List String)
  | [], _ => none
  | (k0, ns) :: rest, k => if k0 = k then some ns else lookupKey rest k

/-- `get_preferred_index_patches`: group patch names by preferred index.
The guard `if patch_file.preferred_index:` is Python truthiness on an
`Optional[int]`, so both `None` and `0` are skipped. -/
def get_preferred_index_patches (patch_files : List PatchFile) : List (Int × List String) :=
  patch_files.foldl
    (fun m pf =>
      match pf.preferred_index with
      | some k => if k = 0 then m else appendAt m k pf.name
      | none => m)
    []

/-- The `preferred_index_strs` loop of `config_stats`, one triple
`(conflict_char, index, name)` per printed line (the source formats each as
the string `"\t{conflict_char}[{i}] {p}"`).  `sorted(keys)` is modelled by
insertion sort, `conflict_char` is `'*'` when the slot has more than one
requester and `' '` otherwise. -/
def preferred_index_strs (m : List (Int × List String)) : List (Char × Int × String) :=
  (List.insertionSort (· ≤ ·) (m.map Prod.fst)).flatMap
    (fun i =>
      match lookupKey m i with
      | some ns => ns.map (fun p => (if 1 < ns.length then '*' else ' ', i, p))
      | none => [])

/-- One JSON scalar as it appears in a persisted config record. -/
inductive JValue where
  | s : String → JValue
  | b : Bool → JValue
  | i : Int → JValue
  | null : JValue
deriving DecidableEq, Repr

/-- `PatchFile.config`: the dict serialised for one record.  `json.dumps`
with `sort_keys=True` writes the keys in alphabetical order. -/
def PatchFile.config (pf : PatchFile) : List (String × JValue) :=
  [("active", .b pf.active),
   ("file_name", .s pf.file_name),
   ("full_path", .s pf.full_path),
   ("name", .s pf.name),
   ("preferred_index",
     match pf.preferred_index with
     | some k => .i k
     | none => .null)]

/-- `create_config`: the document written out, `[pf.config() for pf in
patch_files]` (the JSON byte encoding itself is an external collaborator). -/
def create_config (patch_files : List PatchFile) : List (List (String × JValue)) :=
  patch_files.map PatchFile.config

/-- First-match key lookup in a parsed JSON object (keys are unique in a
parsed Python dict). -/
def jLookup : List (String × JValue) → String → Option JValue
  | [], _ => none
  | (k0, v) :: rest, k => if k0 = k then some v else jLookup rest k

/-- `PatchFile(**x)` for one parsed record `x`: the three required fields
must be present, `active` defaults to `True` and `preferred_index` to
`None` when absent.  Restricted to well-typed field values (the dataclass
itself performs no type validation). -/
def patchFileOfRecord (x : List (String × JValue)) : Option PatchFile :=
  match jLookup x "full_path", jLookup x "file_name", jLookup x "name" with
  | some (.s fp), some (.s fn), some (.s nm) =>
    let act : Option Bool :=
      match jLookup x "active" with
      | some (.b a) => some a
      | none => some true
      | _ => none
    let pref : Option (Option Int) :=
      match jLookup x "preferred_index" with
      | some (.i k) => some (some k)
      | some .null => some none
      | none => some none
      | _ => none
    match act, pref with
    | some a, some p => some ⟨fp, fn, nm, a, p⟩
    | _, _ => none
  | _, _, _ => none

/-- `get_patch_files_from_config`: parse every record of the document,
`[PatchFile(**x) for x in json.loads(txt)]`; any failure aborts. -/
def get_patch_files_from_config (cfg : List (List (String × JValue))) :
    Option (List PatchFile) :=
  cfg.mapM patchFileOfRecord

/-- The display names of the patches whose `preferred_index` is exactly
`k`, in collection order.  Stated from the spec's words ("slot → list of
display names that requested it") to compare against the reporter. -/
def namesRequesting (patch_files : List PatchFile) (k : Int) : List String :=
  (patch_files.filter (fun pf => pf.preferred_index = some k)).map PatchFile.name

/-! ### Concrete records used in scenario statements -/

/-- An active patch with no slot preference. -/
def wA : PatchFile := ⟨"patches/a.bin", "a.bin", "a.bin", true, none⟩

/-- A second active patch with no slot preference. -/
def wB : PatchFile := ⟨"patches/b.bin", "b.bin", "b.bin", true, none⟩

/-- An active patch pinned to slot 5. -/
def wX5 : PatchFile := ⟨"patches/x.bin", "x.bin", "x.bin", true, some 5⟩

/-- Another active patch pinned to slot 5. -/
def wY5 : PatchFile := ⟨"patches/y.bin", "y.bin", "y.bin", true, some 5⟩

/-- An active patch pinned to slot 60. -/
def wC60 : PatchFile := ⟨"patches/c.bin", "c.bin", "c.bin", true, some 60⟩

/-- An active patch pinned to slot 0. -/
def wE0 : PatchFile := ⟨"patches/e.bin", "e.bin", "e.bin", true, some 0⟩

/-- An active patch whose persisted preferred index is the negative -1. -/
def wNeg : PatchFile := ⟨"patches/m.bin", "m.bin", "m.bin", true, some (-1)⟩

/-- An inactive patch. -/
def wInactive : PatchFile := ⟨"patches/i.bin", "i.bin", "i.bin", false, none⟩

/-- The `i`-th of a family of pairwise distinct active entries with no slot
preference (paths of pairwise different lengths). -/
def mkActive (i : Nat) : PatchFile :=
  ⟨String.mk (List.replicate (i + 1) 'a'), "f.bin", "p.bin", true, none⟩

/-- 65 distinct active entries, one more than the page capacity. -/
def entries65 : List PatchFile := (List.range 65).map mkActive

/-- The table expected from allocating `entries65`: the first 64 of them in
input order. -/
def table64 : List (Option PatchFile) := (List.range 64).map (fun i => some (mkActive i))

/-! ### Lemmas about the gap-filling loop -/

theorem fillLoop_length (slots : List (Option PatchFile)) (q : List PatchFile) :
    (fillLoop slots q).length = slots.length := by
  induction slots generalizing q with
  | nil => cases q <;> simp [fillLoop]
  | cons c rest ih =>
    cases q with
    | nil => simp [fillLoop]
    | cons p q' => cases c <;> simp [fillLoop, ih]

/-- A filled cell is never overwritten by the gap-filling loop. -/
theorem fillLoop_filled {slots : List (Option PatchFile)} {q : List PatchFile}
    {j : Nat} {pf : PatchFile} (h : slots[j]? = some (some pf)) :
    (fillLoop slots q)[j]? = some (some pf) := by
  induction slots generalizing q j with
  | nil => simp at h
  | cons c rest ih =>
    cases q with
    | nil => simpa [fillLoop] using h
    | cons p q' =>
      cases c with
      | none =>
        cases j with
        | zero => simp at h
        | succ j' => simpa [fillLoop] using ih (by simpa using h)
      | some pf0 =>
        cases j with
        | zero => simpa [fillLoop] using h
        | succ j' => simpa [fillLoop] using ih (by simpa using h)

/-- Closed form of the gap-filling loop: cell `i` keeps its entry when it
was already filled, and otherwise receives the queue element whose position
is the number of empty cells before `i` (when the queue is that long). -/
theorem fillLoop_getElem (slots : List (Option PatchFile)) (q : List PatchFile) (i : Nat) :
    (fillLoop slots q)[i]? =
      (slots[i]?).map (fun c =>
        match c with
        | some pf => some pf
        | none => q[((slots.take i).countP Option.isNone)]?) := by
  induction slots generalizing q i with
  | nil => cases q <;> simp [fillLoop]
  | cons c rest ih =>
    cases q with
    | nil =>
      cases i with
      | zero => cases c <;> simp [fillLoop]
      | succ i' =>
        simp only [fillLoop, List.getElem?_cons_succ]
        cases h : rest[i']? with
        | none => simp [h]
        | some c' => cases c' <;> simp [h]
    | cons p q' =>
      cases c with
      | none =>
        cases i with
        | zero => simp [fillLoop]
        | succ i' =>
          simp only [fillLoop, List.getElem?_cons_succ, List.take_succ_cons,
            List.countP_cons, Option.isNone]
          rw [ih]
          cases h : rest[i']? with
          | none => simp
          | some c' =>
            cases c' with
            | some pf1 => simp
            | none => simp [Nat.add_comm 1]
      | some pf0 =>
        cases i with
        | zero => simp [fillLoop]
        | succ i' =>
          simp only [fillLoop, List.getElem?_cons_succ, List.take_succ_cons,
            List.countP_cons, Option.isNone]
          rw [ih]
          simp

/-! ### Lemmas about the placement loop -/

theorem placeLoop_append (v : Bool) (l₁ l₂ : List PatchFile) (st : AllocState) :
    placeLoop v (l₁ ++ l₂) st =
      match placeLoop v l₁ st with
      | .error e => .error e
      | .ok st' => placeLoop v l₂ st' := by
  induction l₁ generalizing st with
  | nil => simp [placeLoop]
  | cons pf rest ih =>
    simp only [List.cons_append, placeLoop]
    split
    · next hbreak =>
      cases l₂ with
      | nil => simp [placeLoop]
      | cons x xs => simp [placeLoop, hbreak]
    · next hbreak =>
      split
      · next hina =>
        split
        · simp
        · exact ih st
      · next hact =>
        cases hpref : pf.preferred_index with
        | none => exact ih _
        | some k =>
          simp only []
          cases hidx : pyListIndex st.patch_order.length k with
          | none => simp
          | some j =>
            by_cases hcell : st.patch_order[j]? = some none
            · simp only [if_pos hcell]
              exact ih _
            · simp only [if_neg hcell]
              exact ih _

theorem placeLoop_length {v : Bool} {l : List PatchFile} {st st' : AllocState}
    (h : placeLoop v l st = .ok st') :
    st'.patch_order.length = st.patch_order.length := by
  induction l generalizing st with
  | nil =>
    simp only [placeLoop, Except.ok.injEq] at h
    rw [← h]
  | cons pf rest ih =>
    simp only [placeLoop] at h
    split at h
    · simp only [Except.ok.injEq] at h
      rw [← h]
    · split at h
      · split at h
        · simp at h
        · exact ih h
      · split at h
        · split at h
          · simp at h
          · split at h
            · have := ih h
              simpa using this
            · have := ih h
              simpa using this
        · have := ih h
          simpa using this

/-- A cell already holding a patch is never overwritten by the placement
loop. -/
theorem placeLoop_filled_mono {v : Bool} {l : List PatchFile} {st st' : AllocState}
    {j : Nat} {pf : PatchFile} (h : placeLoop v l st = .ok st')
    (hcell : st.patch_order[j]? = some (some pf)) :
    st'.patch_order[j]? = some (some pf) := by
  induction l generalizing st with
  | nil =>
    simp only [placeLoop, Except.ok.injEq] at h
    rw [← h]; exact hcell
  | cons pf0 rest ih =>
    simp only [placeLoop] at h
    split at h
    · simp only [Except.ok.injEq] at h
      rw [← h]; exact hcell
    · split at h
      · split at h
        · simp at h
        · exact ih h hcell
      · split at h
        · split at h
          · simp at h
          · split at h
            · next j0 hj0 hempty =>
              refine ih h ?_
              simp only [List.getElem?_set]
              rcases eq_or_ne j0 j with rfl | hne
              · rw [hcell] at hempty
                simp at hempty
              · simp [hne, hcell]
            · exact ih h hcell
        · exact ih h hcell

/-- The placement loop only appends to the unplaced queue. -/
theorem placeLoop_queue_mono {v : Bool} {l : List PatchFile} {st st' : AllocState}
    {q : PatchFile} (h : placeLoop v l st = .ok st')
    (hq : q ∈ st.unordered_patches) : q ∈ st'.unordered_patches := by
  induction l generalizing st with
  | nil =>
    simp only [placeLoop, Except.ok.injEq] at h
    rw [← h]; exact hq
  | cons pf0 rest ih =>
    simp only [placeLoop] at h
    split at h
    · simp only [Except.ok.injEq] at h
      rw [← h]; exact hq
    · split at h
      · split at h
        · simp at h
        · exact ih h hq
      · split at h
        · split at h
          · simp at h
          · split at h
            · exact ih h hq
            · refine ih h ?_
              simp [hq]
        · refine ih h ?_
          simp [hq]

/-- Under `verbose=False`, if every preferred index in the remaining input
is a valid Python index for the 64-cell table, the placement loop raises no
exception. -/
theorem placeLoop_ok (l : List PatchFile) (st : AllocState)
    (hlen : st.patch_order.length = page_size)
    (hpref : ∀ F ∈ l, ∀ k, F.preferred_index = some k → (pyListIndex page_size k).isSome = true) :
    ∃ st', placeLoop false l st = .ok st' := by
  induction l generalizing st with
  | nil => exact ⟨st, rfl⟩
  | cons pf0 rest ih =>
    simp only [placeLoop]
    split
    · exact ⟨_, rfl⟩
    · split
      · simp only [Bool.false_eq_true, if_false]
        exact ih st hlen (fun F hF => hpref F (List.mem_cons_of_mem _ hF))
      · cases hp : pf0.preferred_index with
        | none =>
          exact ih _ hlen (fun F hF => hpref F (List.mem_cons_of_mem _ hF))
        | some k =>
          have hvalid := hpref pf0 (List.mem_cons_self pf0 rest) k hp
          obtain ⟨j, hidx⟩ := Option.isSome_iff_exists.mp hvalid
          rw [hlen]
          simp only [hidx]
          by_cases hcell : st.patch_order[j]? = some none
          · simp only [if_pos hcell]
            refine ih _ ?_ (fun F hF => hpref F (List.mem_cons_of_mem _ hF))
            simpa using hlen
          · simp only [if_neg hcell]
            exact ih _ hlen (fun F hF => hpref F (List.mem_cons_of_mem _ hF))

/-- When the active entries fit the capacity, the final `count` is the
initial one plus the number of active entries processed. -/
theorem placeLoop_count {v : Bool} {l : List PatchFile} {st st' : AllocState}
    (h : placeLoop v l st = .ok st')
    (hcap : st.count + (l.filter (fun pf => pf.active)).length ≤ page_size + 1) :
    st'.count = st.count + (l.filter (fun pf => pf.active)).length := by
  induction l generalizing st with
  | nil =>
    simp only [placeLoop, Except.ok.injEq] at h
    rw [← h]; simp
  | cons pf0 rest ih =>
    simp only [placeLoop] at h
    split at h
    · next hbreak =>
      simp only [Except.ok.injEq] at h
      rw [← h]
      show st.count = st.count + _
      have h1 : page_size < st.count := hbreak
      omega
    · next hbreak =>
      split at h
      · next hina =>
        have hlf : ((pf0 :: rest).filter (fun pf => pf.active)).length
            = (rest.filter (fun pf => pf.active)).length := by
          simp [List.filter_cons, hina]
        split at h
        · simp at h
        · rw [hlf] at hcap ⊢
          exact ih h hcap
      · next hact =>
        have hactT : pf0.active = true := by
          revert hact; cases pf0.active <;> simp
        have hlf : ((pf0 :: rest).filter (fun pf => pf.active)).length
            = (rest.filter (fun pf => pf.active)).length + 1 := by
          simp [List.filter_cons, hactT]
        split at h
        · split at h
          · simp at h
          · split at h
            · have h2 := ih h (show st.count + 1 + _ ≤ _ by omega)
              have h3 : st'.count
                  = st.count + 1 + (rest.filter (fun pf => pf.active)).length := h2
              omega
            · have h2 := ih h (show st.count + 1 + _ ≤ _ by omega)
              have h3 : st'.count
                  = st.count + 1 + (rest.filter (fun pf => pf.active)).length := h2
              omega
        · have h2 := ih h (show st.count + 1 + _ ≤ _ by omega)
          have h3 : st'.count
              = st.count + 1 + (rest.filter (fun pf => pf.active)).length := h2
          omega

/-- A still-empty cell that no remaining active entry claims stays empty
through the placement loop. -/
theorem placeLoop_cell_none {v : Bool} {l : List PatchFile} {st st' : AllocState} {j : Nat}
    (h : placeLoop v l st = .ok st')
    (hlen : st.patch_order.length = page_size)
    (hnoclaim : ∀ F ∈ l, F.active = true → ∀ k, F.preferred_index = some k →
      pyListIndex page_size k ≠ some j)
    (hcell : st.patch_order[j]? = some none) :
    st'.patch_order[j]? = some none := by
  induction l generalizing st with
  | nil =>
    simp only [placeLoop, Except.ok.injEq] at h
    rw [← h]; exact hcell
  | cons pf0 rest ih =>
    simp only [placeLoop] at h
    split at h
    · simp only [Except.ok.injEq] at h
      rw [← h]; exact hcell
    · split at h
      · split at h
        · simp at h
        · exact ih h hlen (fun F hF => hnoclaim F (List.mem_cons_of_mem _ hF)) hcell
      · next hact =>
        have hactT : pf0.active = true := by
          revert hact; cases pf0.active <;> simp
        split at h
        · next k hk =>
          split at h
          · simp at h
          · next j0 hj0 =>
            split at h
            · next hempty =>
              refine ih h (by simpa using hlen)
                (fun F hF => hnoclaim F (List.mem_cons_of_mem _ hF)) ?_
              have hj0' : pyListIndex page_size k = some j0 := by rw [← hlen]; exact hj0
              have hne : j0 ≠ j := by
                intro heq
                exact hnoclaim pf0 (List.mem_cons_self pf0 rest) hactT k hk (heq ▸ hj0')
              simp only [List.getElem?_set]
              simp [hne, hcell]
            · exact ih h hlen (fun F hF => hnoclaim F (List.mem_cons_of_mem _ hF)) hcell
        · exact ih h hlen (fun F hF => hnoclaim F (List.mem_cons_of_mem _ hF)) hcell

theorem pyListIndex_eq_of_range {m : Int} (h0 : 0 ≤ m) (h1 : m < (page_size : Int)) :
    pyListIndex page_size m = some m.toNat := by
  unfold pyListIndex
  rw [if_pos ⟨h0, h1⟩]

theorem pyListIndex_of_lt {k : Nat} (h : k < page_size) :
    pyListIndex page_size (k : Int) = some k := by
  rw [pyListIndex_eq_of_range (Int.natCast_nonneg k) (by exact_mod_cast h)]
  simp

theorem pyListIndex_isSome_of_range {m : Int} (h0 : 0 ≤ m) (h1 : m < 64) :
    (pyListIndex page_size m).isSome = true := by
  rw [pyListIndex_eq_of_range h0 (by exact_mod_cast h1)]
  rfl

theorem initState_len : initState.patch_order.length = page_size := by
  simp [initState]

theorem initState_cell {k : Nat} (h : k < page_size) :
    initState.patch_order[k]? = some none := by
  simp [initState, List.getElem?_replicate, h]

/-- C1: an active entry pinned to slot `k` (slot `0` included) that is among
the first 64 active entries considered, and whose slot no earlier-order
active entry also claims, ends up at cell `k` of the table produced by the
allocator. -/
theorem C1_pin_respected (l₁ l₂ : List PatchFile) (E : PatchFile) (k : Nat)
    (hrange : ∀ F ∈ l₁ ++ E :: l₂, ∀ m, F.preferred_index = some m → 0 ≤ m ∧ m < 64)
    (hk : k < 64)
    (hE : E.active = true) (hEk : E.preferred_index = some (k : Int))
    (hfirst64 : (l₁.filter (fun pf => pf.active)).length < 64)
    (hnoclaim : ∀ F ∈ l₁, F.active = true → F.preferred_index ≠ some (k : Int)) :
    ∃ slots warned, copy_files (l₁ ++ E :: l₂) false = .ok (slots, warned) ∧
      slots[k]? = some (some E) := by
  have hvalid : ∀ F ∈ l₁ ++ E :: l₂, ∀ m, F.preferred_index = some m →
      (pyListIndex page_size m).isSome = true := by
    intro F hF m hm
    obtain ⟨h0, h1⟩ := hrange F hF m hm
    exact pyListIndex_isSome_of_range h0 h1
  have hvalid₁ : ∀ F ∈ l₁, ∀ m, F.preferred_index = some m →
      (pyListIndex page_size m).isSome = true := by
    intro F hF
    exact hvalid F (List.mem_append_left _ hF)
  obtain ⟨st₁, h₁⟩ := placeLoop_ok l₁ initState initState_len hvalid₁
  have hlen₁ : st₁.patch_order.length = page_size := by
    rw [placeLoop_length h₁, initState_len]
  have hcellk : st₁.patch_order[k]? = some none := by
    refine placeLoop_cell_none h₁ initState_len ?_ (initState_cell hk)
    intro F hF hFa m hm hcontra
    obtain ⟨h0, h1⟩ := hrange F (List.mem_append_left _ hF) m hm
    rw [pyListIndex_eq_of_range h0 (by exact_mod_cast h1)] at hcontra
    have hmk : m = (k : Int) := by
      have := Option.some.inj hcontra
      omega
    exact hnoclaim F hF hFa (hmk ▸ hm)
  have hcount : st₁.count = 1 + (l₁.filter (fun pf => pf.active)).length := by
    have := placeLoop_count h₁ (by
      show 1 + _ ≤ _
      have : page_size = 64 := rfl
      omega)
    simpa [initState] using this
  have hcount64 : ¬ page_size < st₁.count := by
    rw [hcount]
    show ¬ (64 < _)
    omega
  have hstep : placeLoop false (E :: l₂) st₁ =
      placeLoop false l₂
        { st₁ with
            patch_order := st₁.patch_order.set k (some E)
            count := st₁.count + 1 } := by
    simp only [placeLoop, if_neg hcount64, hE, hEk]
    rw [hlen₁, pyListIndex_of_lt (by exact hk)]
    simp only [if_pos hcellk]
    simp
  obtain ⟨st₃, h₃⟩ := placeLoop_ok l₂
    { st₁ with
        patch_order := st₁.patch_order.set k (some E)
        count := st₁.count + 1 }
    (by simpa using hlen₁)
    (fun F hF => hvalid F (List.mem_append_right _ (List.mem_cons_of_mem _ hF)))
  have hall : placeLoop false (l₁ ++ E :: l₂) initState = .ok st₃ := by
    rw [placeLoop_append, h₁]
    show placeLoop false (E :: l₂) st₁ = _
    rw [hstep, h₃]
  have hcellE : st₃.patch_order[k]? = some (some E) := by
    refine placeLoop_filled_mono h₃ ?_
    show (st₁.patch_order.set k (some E))[k]? = some (some E)
    rw [List.getElem?_set]
    simp [hlen₁, show k < page_size from hk]
  refine ⟨fillLoop st₃.patch_order st₃.unordered_patches, st₃.warned, ?_, ?_⟩
  · simp [copy_files, hall]
  · exact fillLoop_filled hcellE

/-- Witness for C1 at a concrete input: `wE0` pins slot 0 behind one
unpinned active entry and is honoured there. -/
theorem C1_pin_respected_witness :
    ∃ slots warned, copy_files ([wA] ++ wE0 :: []) false = .ok (slots, warned) ∧
      slots[0]? = some (some wE0) := by
  refine C1_pin_respected [wA] [] wE0 0 ?_ ?_ ?_ ?_ ?_ ?_
  · decide
  · decide
  · decide
  · decide
  · decide
  · decide

/-- C2: collisions on a preferred slot are resolved by processing order:
the earliest active claimant of slot `k` occupies it and every later
claimant within capacity is demoted to the FIFO fallback queue; in
particular for `[X, Y]` both preferring slot 5, `X` occupies slot 5 and `Y`
falls back to slot 0, the earliest open cell. -/
theorem C2_tiebreak_by_order :
    (∀ (l₁ l₂ l₃ : List PatchFile) (X Y : PatchFile) (k : Nat),
      (∀ F ∈ l₁ ++ X :: (l₂ ++ Y :: l₃), ∀ m, F.preferred_index = some m → 0 ≤ m ∧ m < 64) →
      k < 64 →
      X.active = true → X.preferred_index = some (k : Int) →
      Y.active = true → Y.preferred_index = some (k : Int) →
      ((l₁ ++ X :: l₂).filter (fun pf => pf.active)).length < 64 →
      (∀ F ∈ l₁, F.active = true → F.preferred_index ≠ some (k : Int)) →
      ∃ st', placeLoop false (l₁ ++ X :: (l₂ ++ Y :: l₃)) initState = .ok st' ∧
        st'.patch_order[k]? = some (some X) ∧ Y ∈ st'.unordered_patches) ∧
    (∀ X Y : PatchFile,
      X.active = true → X.preferred_index = some 5 →
      Y.active = true → Y.preferred_index = some 5 →
      ∃ slots warned, copy_files [X, Y] false = .ok (slots, warned) ∧
        slots[5]? = some (some X) ∧ slots[0]? = some (some Y)) := by
  constructor
  · intro l₁ l₂ l₃ X Y k hrange hk hX hXk hY hYk hfirst64 hnoclaim
    have hvalid : ∀ F ∈ l₁ ++ X :: (l₂ ++ Y :: l₃), ∀ m, F.preferred_index = some m →
        (pyListIndex page_size m).isSome = true := by
      intro F hF m hm
      obtain ⟨h0, h1⟩ := hrange F hF m hm
      exact pyListIndex_isSome_of_range h0 h1
    obtain ⟨st₁, h₁⟩ := placeLoop_ok l₁ initState initState_len
      (fun F hF => hvalid F (List.mem_append_left _ hF))
    have hlen₁ : st₁.patch_order.length = page_size := by
      rw [placeLoop_length h₁, initState_len]
    have hcellk : st₁.patch_order[k]? = some none := by
      refine placeLoop_cell_none h₁ initState_len ?_ (initState_cell hk)
      intro F hF hFa m hm hcontra
      obtain ⟨h0, h1⟩ := hrange F (List.mem_append_left _ hF) m hm
      rw [pyListIndex_eq_of_range h0 (by exact_mod_cast h1)] at hcontra
      have hmk : m = (k : Int) := by
        have := Option.some.inj hcontra
        omega
      exact hnoclaim F hF hFa (hmk ▸ hm)
    have hflen : ((l₁ ++ X :: l₂).filter (fun pf => pf.active)).length
        = (l₁.filter (fun pf => pf.active)).length
          + 1 + (l₂.filter (fun pf => pf.active)).length := by
      simp [List.filter_append, List.filter_cons, hX]
      omega
    have hcount₁ : st₁.count = 1 + (l₁.filter (fun pf => pf.active)).length := by
      have := placeLoop_count h₁ (by
        show 1 + _ ≤ _
        have hps : page_size = 64 := rfl
        omega)
      simpa [initState] using this
    have hcount64 : ¬ page_size < st₁.count := by
      have hps : page_size = 64 := rfl
      omega
    have hstepX : placeLoop false (X :: (l₂ ++ Y :: l₃)) st₁ =
        placeLoop false (l₂ ++ Y :: l₃)
          { st₁ with
              patch_order := st₁.patch_order.set k (some X)
              count := st₁.count + 1 } := by
      simp only [placeLoop, if_neg hcount64, hX, hXk]
      rw [hlen₁, pyListIndex_of_lt (by exact hk)]
      simp only [if_pos hcellk]
      simp
    set st₂ : AllocState :=
      { st₁ with
          patch_order := st₁.patch_order.set k (some X)
          count := st₁.count + 1 } with hst₂
    obtain ⟨st₃, h₃⟩ := placeLoop_ok l₂ st₂ (by simpa [hst₂] using hlen₁)
      (fun F hF => hvalid F
        (List.mem_append_right _ (List.mem_cons_of_mem _ (List.mem_append_left _ hF))))
    have hlen₃ : st₃.patch_order.length = page_size := by
      rw [placeLoop_length h₃]
      simpa [hst₂] using hlen₁
    have hcellX₃ : st₃.patch_order[k]? = some (some X) := by
      refine placeLoop_filled_mono h₃ ?_
      show (st₁.patch_order.set k (some X))[k]? = some (some X)
      rw [List.getElem?_set]
      simp [hlen₁, show k < page_size from hk]
    have hcount₃ : st₃.count = st₂.count + (l₂.filter (fun pf => pf.active)).length := by
      refine placeLoop_count h₃ ?_
      have h2c : st₂.count = st₁.count + 1 := rfl
      have hps : page_size = 64 := rfl
      omega
    have hcount64₃ : ¬ page_size < st₃.count := by
      have h2c : st₂.count = st₁.count + 1 := rfl
      have hps : page_size = 64 := rfl
      omega
    have hcellX₃' : ¬ st₃.patch_order[k]? = some none := by
      rw [hcellX₃]; simp
    have hstepY : placeLoop false (Y :: l₃) st₃ =
        placeLoop false l₃
          { st₃ with
              unordered_patches := st₃.unordered_patches ++ [Y]
              count := st₃.count + 1 } := by
      simp only [placeLoop, if_neg hcount64₃, hY, hYk]
      rw [hlen₃, pyListIndex_of_lt (by exact hk)]
      simp only [if_neg hcellX₃']
      simp
    set st₄ : AllocState :=
      { st₃ with
          unordered_patches := st₃.unordered_patches ++ [Y]
          count := st₃.count + 1 } with hst₄
    obtain ⟨st₅, h₅⟩ := placeLoop_ok l₃ st₄ (by simpa [hst₄] using hlen₃)
      (fun F hF => hvalid F
        (List.mem_append_right _ (List.mem_cons_of_mem _
          (List.mem_append_right _ (List.mem_cons_of_mem _ hF)))))
    refine ⟨st₅, ?_, ?_, ?_⟩
    · rw [placeLoop_append, h₁]
      show placeLoop false (X :: (l₂ ++ Y :: l₃)) st₁ = _
      rw [hstepX, placeLoop_append, h₃]
      show placeLoop false (Y :: l₃) st₃ = _
      rw [hstepY, h₅]
    · exact placeLoop_filled_mono h₅ (by simpa [hst₄] using hcellX₃)
    · refine placeLoop_queue_mono h₅ ?_
      simp [hst₄]
  · intro X Y hX hX5 hY hY5
    have h1 : placeLoop false [X, Y] initState = .ok
        { patch_order := (List.replicate page_size none).set 5 (some X)
          unordered_patches := [Y]
          count := 3
          warned := false } := by
      have hi5 : pyListIndex page_size ((5 : Nat) : Int) = some 5 := pyListIndex_of_lt (by decide)
      simp only [placeLoop, initState, hX, hX5, hY, hY5]
      norm_num [pyListIndex, page_size, List.getElem?_set, List.getElem?_replicate]
      simp
    refine ⟨fillLoop ((List.replicate page_size none).set 5 (some X)) [Y], false,
      ?_, ?_, ?_⟩
    · simp [copy_files, h1]
    · refine fillLoop_filled ?_
      rw [List.getElem?_set]
      simp [page_size]
    · rw [fillLoop_getElem]
      rw [List.getElem?_set]
      simp [page_size, List.getElem?_replicate]

/-- Witness for C2 at a concrete input: `wX5` and `wY5` both prefer slot 5;
`wX5` wins it and `wY5` falls back to slot 0. -/
theorem C2_tiebreak_by_order_witness :
    ∃ slots warned, copy_files [wX5, wY5] false = .ok (slots, warned) ∧
      slots[5]? = some (some wX5) ∧ slots[0]? = some (some wY5) :=
  C2_tiebreak_by_order.2 wX5 wY5 (by decide) (by decide) (by decide) (by decide)

theorem take_set_of_le (l : List (Option PatchFile)) (i j : Nat) (a : Option PatchFile)
    (h : i ≤ j) : (l.set j a).take i = l.take i := by
  induction l generalizing i j with
  | nil => simp
  | cons c rest ih =>
    cases i with
    | zero => simp
    | succ i' =>
      cases j with
      | zero => omega
      | succ j' => simp [ih i' j' (by omega)]

theorem countP_none_replicate (n : Nat) :
    (List.replicate n (none : Option PatchFile)).countP Option.isNone = n := by
  induction n with
  | zero => simp
  | succ m ih => simp [List.replicate_succ, List.countP_cons, ih, Option.isNone]

/-- C4: gap filling walks the cells in ascending order, placing the queued
entries in FIFO order into the still-empty cells and stopping when the
queue runs out — in closed form, a filled cell keeps its entry and the
`e`-th empty cell receives the `e`-th queued entry when it exists; in
particular for A (no preference), B (no preference), C (preferred slot 60):
C occupies slot 60 while A and B occupy slots 0 and 1 in input order. -/
theorem C4_fifo_gap_fill :
    (∀ (slots : List (Option PatchFile)) (q : List PatchFile) (i : Nat),
      (fillLoop slots q)[i]? =
        (slots[i]?).map (fun c =>
          match c with
          | some pf => some pf
          | none => q[((slots.take i).countP Option.isNone)]?)) ∧
    (∀ A B C : PatchFile,
      A.active = true → A.preferred_index = none →
      B.active = true → B.preferred_index = none →
      C.active = true → C.preferred_index = some 60 →
      ∃ slots warned, copy_files [A, B, C] false = .ok (slots, warned) ∧
        slots[60]? = some (some C) ∧ slots[0]? = some (some A) ∧
        slots[1]? = some (some B)) := by
  constructor
  · exact fillLoop_getElem
  · intro A B C hA hApref hB hBpref hC hCpref
    have h1 : placeLoop false [A, B, C] initState = .ok
        { patch_order := (List.replicate page_size none).set 60 (some C)
          unordered_patches := [A, B]
          count := 4
          warned := false } := by
      simp only [placeLoop, initState, hA, hApref, hB, hBpref, hC, hCpref]
      norm_num [pyListIndex, page_size, List.getElem?_replicate]
      rfl
    refine ⟨fillLoop ((List.replicate page_size none).set 60 (some C)) [A, B], false,
      ?_, ?_, ?_, ?_⟩
    · simp [copy_files, h1]
    · refine fillLoop_filled ?_
      rw [List.getElem?_set]
      simp [page_size]
    · rw [fillLoop_getElem]
      rw [List.getElem?_set]
      simp [page_size, List.getElem?_replicate]
    · rw [fillLoop_getElem]
      rw [List.getElem?_set]
      rw [take_set_of_le _ 1 60 _ (by omega)]
      simp [page_size, List.getElem?_replicate, List.take_replicate,
        countP_none_replicate]

/-- Witness for C4 at a concrete input: `wA`, `wB` unpinned, `wC60` pinned
to slot 60. -/
theorem C4_fifo_gap_fill_witness :
    ∃ slots warned, copy_files [wA, wB, wC60] false = .ok (slots, warned) ∧
      slots[60]? = some (some wC60) ∧ slots[0]? = some (some wA) ∧
      slots[1]? = some (some wB) :=
  C4_fifo_gap_fill.2 wA wB wC60 (by decide) (by decide) (by decide) (by decide)
    (by decide) (by decide)

/-- C3: the allocator never returns a table holding more than `page_size`
entries, whatever the input; and with the 65 active entries `entries65`,
exactly the first 64 are placed in input order (`table64`), the 65th never
appears, and the truncation warning is emitted. -/
theorem C3_capacity_safe :
    (∀ (entries : List PatchFile) (v : Bool) (slots : List (Option PatchFile)) (w : Bool),
      copy_files entries v = .ok (slots, w) →
      (slots.filterMap id).length ≤ page_size) ∧
    (copy_files entries65 false = .ok (table64, true) ∧
      table64 = (List.range 64).map (fun i => some (mkActive i)) ∧
      some (mkActive 64) ∉ table64) := by
  constructor
  · intro entries v slots w h
    unfold copy_files at h
    cases hpl : placeLoop v entries initState with
    | error e => rw [hpl] at h; simp at h
    | ok st =>
      rw [hpl] at h
      simp only [Except.ok.injEq, Prod.mk.injEq] at h
      obtain ⟨hslots, hw⟩ := h
      have hlen : slots.length = page_size := by
        rw [← hslots, fillLoop_length, placeLoop_length hpl, initState_len]
      calc (slots.filterMap id).length ≤ slots.length := List.length_filterMap_le id slots
        _ = page_size := hlen
  · exact ⟨by rfl, by rfl, by decide⟩

/-- Witness for C3's capacity bound at a concrete input. -/
theorem C3_capacity_safe_witness :
    (table64.filterMap id).length ≤ page_size :=
  C3_capacity_safe.1 entries65 false table64 true (by rfl)

/-- C7 is a genuine bug in the source: with `verbose` set, skipping an
inactive entry evaluates `pf['name']` on a dataclass and raises `TypeError`
instead of continuing; with `verbose` unset the entry is skipped as the
spec describes and the table stays empty. -/
theorem C7_verbose_inactive_crashes :
    copy_files [wInactive] true = .error "TypeError: PatchFile object is not subscriptable" ∧
    copy_files [wInactive] false = .ok (List.replicate page_size none, false) := by
  exact ⟨by rfl, by rfl⟩

theorem pyListIndex_none_of_out {k : Int} (h : 64 ≤ k ∨ k < -64) :
    pyListIndex page_size k = none := by
  have hcast : ((page_size : Nat) : Int) = 64 := by norm_num [page_size]
  unfold pyListIndex
  rw [if_neg (by rw [hcast]; omega), if_neg (by rw [hcast]; omega)]

theorem pyListIndex_neg {k : Int} (h0 : -64 ≤ k) (h1 : k < 0) :
    pyListIndex page_size k = some (k + 64).toNat := by
  have hcast : ((page_size : Nat) : Int) = 64 := by norm_num [page_size]
  unfold pyListIndex
  rw [if_neg (by rw [hcast]; omega), if_pos (by rw [hcast]; omega)]
  rw [hcast]

/-- C6 counterexample: an active entry whose persisted `preferred_index` is
`-1` is not rejected at allocation time; the allocator silently assigns it
to cell 63 of the table. -/
theorem C6_counterexample :
    copy_files [wNeg] false
      = .ok ((List.replicate page_size none).set 63 (some wNeg), false) ∧
    ((List.replicate page_size (none : Option PatchFile)).set 63 (some wNeg))[63]?
      = some (some wNeg) := by
  exact ⟨by rfl, by decide⟩

/-- C6 amended: a preferred slot at or beyond 64 (or below -64) is surfaced
as an uncaught `IndexError` when the entry is reached, but a negative
preferred slot in `[-64, -1]` is NOT an error: Python list indexing wraps
it silently to cell `64 + k`. -/
theorem C6_out_of_range (l₁ l₂ : List PatchFile) (e : PatchFile) (k : Int) :
    ((∀ F ∈ l₁, ∀ m, F.preferred_index = some m → (pyListIndex page_size m).isSome = true) →
      (l₁.filter (fun pf => pf.active)).length < 64 →
      e.active = true → e.preferred_index = some k →
      (64 ≤ k ∨ k < -64) →
      copy_files (l₁ ++ e :: l₂) false = .error "IndexError: list index out of range") ∧
    (e.active = true → e.preferred_index = some k → -64 ≤ k → k < 0 →
      ∃ slots, copy_files [e] false = .ok (slots, false) ∧
        slots[(k + 64).toNat]? = some (some e)) := by
  constructor
  · intro hvalid hfirst64 he hek hout
    obtain ⟨st₁, h₁⟩ := placeLoop_ok l₁ initState initState_len hvalid
    have hlen₁ : st₁.patch_order.length = page_size := by
      rw [placeLoop_length h₁, initState_len]
    have hcount₁ : st₁.count = 1 + (l₁.filter (fun pf => pf.active)).length := by
      have := placeLoop_count h₁ (by
        show 1 + _ ≤ _
        have hps : page_size = 64 := rfl
        omega)
      simpa [initState] using this
    have hcount64 : ¬ page_size < st₁.count := by
      have hps : page_size = 64 := rfl
      omega
    have hstep : placeLoop false (e :: l₂) st₁ =
        .error "IndexError: list index out of range" := by
      simp only [placeLoop, if_neg hcount64, he, hek]
      rw [hlen₁, pyListIndex_none_of_out hout]
      simp
    unfold copy_files
    rw [placeLoop_append, h₁]
    show (match placeLoop false (e :: l₂) st₁ with
      | .error er => Except.error er
      | .ok st => Except.ok (fillLoop st.patch_order st.unordered_patches, st.warned)) = _
    rw [hstep]
  · intro he hek h0 h1
    have hidx : pyListIndex page_size k = some (k + 64).toNat := pyListIndex_neg h0 h1
    have hlt : (k + 64).toNat < page_size := by
      have hps : page_size = 64 := rfl
      omega
    have hcell : (List.replicate page_size (none : Option PatchFile))[(k + 64).toNat]?
        = some none := by
      rw [List.getElem?_replicate, if_pos hlt]
    have hplace : placeLoop false [e] initState = .ok
        { patch_order := (List.replicate page_size none).set (k + 64).toNat (some e)
          unordered_patches := []
          count := 2
          warned := false } := by
      simp only [placeLoop, initState, he, hek, List.length_replicate]
      rw [hidx]
      simp only [if_pos hcell]
      norm_num [page_size]
    refine ⟨(List.replicate page_size none).set (k + 64).toNat (some e), ?_, ?_⟩
    · simp [copy_files, hplace, fillLoop]
    · rw [List.getElem?_set]
      simp [hlt, page_size]
      omega

/-- Witness for C6's amended statement at concrete inputs: preferred index
64 raises `IndexError`; preferred index -1 is silently wrapped to cell 63. -/
theorem C6_out_of_range_witness :
    copy_files ([] ++ ⟨"patches/g.bin", "g.bin", "g.bin", true, some 64⟩ :: []) false
        = .error "IndexError: list index out of range" ∧
    (∃ slots, copy_files [wNeg] false = .ok (slots, false) ∧
      slots[((-1 : Int) + 64).toNat]? = some (some wNeg)) :=
  ⟨(C6_out_of_range [] [] ⟨"patches/g.bin", "g.bin", "g.bin", true, some 64⟩ 64).1
      (by simp) (by decide) (by decide) (by decide) (by omega),
    (C6_out_of_range [] [] wNeg (-1)).2 (by decide) (by decide) (by omega) (by omega)⟩

/-! ### Lemmas about the merge -/

theorem override_paths_aux {l : List PatchFile} {p : String} {acc : Option PatchFile}
    {x : PatchFile}
    (h : l.foldl (fun acc y => if y.full_path = p then some y else acc) acc = some x) :
    (x ∈ l ∧ x.full_path = p) ∨ acc = some x := by
  induction l generalizing acc with
  | nil => right; exact h
  | cons y rest ih =>
    simp only [List.foldl_cons] at h
    rcases ih h with ⟨hm, hp⟩ | hacc
    · left; exact ⟨List.mem_cons_of_mem _ hm, hp⟩
    · by_cases hy : y.full_path = p
      · rw [if_pos hy] at hacc
        left
        refine ⟨?_, ?_⟩
        · rw [← Option.some.inj hacc]
          exact List.mem_cons_self y rest
        · rw [← Option.some.inj hacc]
          exact hy
      · rw [if_neg hy] at hacc
        right; exact hacc

theorem override_paths_mem {saved : List PatchFile} {p : String} {x : PatchFile}
    (h : override_paths saved p = some x) : x ∈ saved ∧ x.full_path = p := by
  rcases override_paths_aux h with hok | hacc
  · exact hok
  · simp at hacc

theorem override_paths_none {saved : List PatchFile} {p : String}
    (h : ∀ s ∈ saved, s.full_path ≠ p) : override_paths saved p = none := by
  unfold override_paths
  induction saved with
  | nil => rfl
  | cons y rest ih =>
    simp only [List.foldl_cons]
    rw [if_neg (h y (List.mem_cons_self y rest))]
    exact ih (fun s hs => h s (List.mem_cons_of_mem _ hs))

theorem override_paths_foldl_isSome {l : List PatchFile} {p : String} {acc : PatchFile} :
    l.foldl (fun acc y => if y.full_path = p then some y else acc) (some acc) ≠ none := by
  induction l generalizing acc with
  | nil => simp
  | cons y rest ih =>
    simp only [List.foldl_cons]
    by_cases hy : y.full_path = p
    · rw [if_pos hy]; exact ih
    · rw [if_neg hy]; exact ih

theorem override_paths_unique {saved : List PatchFile} {p : String} {s : PatchFile}
    (hs : s ∈ saved) (hp : s.full_path = p)
    (huniq : ∀ t ∈ saved, t.full_path = p → t = s) :
    override_paths saved p = some s := by
  cases hov : override_paths saved p with
  | some x =>
    obtain ⟨hxm, hxp⟩ := override_paths_mem hov
    rw [huniq x hxm hxp]
  | none =>
    exfalso
    unfold override_paths at hov
    induction saved with
    | nil => simp at hs
    | cons y rest ih =>
      simp only [List.foldl_cons] at hov
      by_cases hy : y.full_path = p
      · rw [if_pos hy] at hov
        exact override_paths_foldl_isSome hov
      · rw [if_neg hy] at hov
        rcases List.mem_cons.mp hs with rfl | hsr
        · exact hy hp
        · exact ih hsr (fun t ht => huniq t (List.mem_cons_of_mem _ ht)) hov

/-- C5: merge is a pure override keyed by `full_path`: the output has
exactly `fresh`'s length and order; position `i` holds the saved record
with the `i`-th fresh record's identity when saved has (exactly) one, and
the fresh record unchanged when saved has none; every output record keeps
the fresh identity at its position, and nothing appears that is not a fresh
record or a saved record matching some fresh identity. -/
theorem C5_merge_pure_override (fresh saved : List PatchFile) :
    (merge_patch_files fresh saved).length = fresh.length ∧
    (∀ (i : Nat) (pf : PatchFile), fresh[i]? = some pf →
      ((∀ s ∈ saved, s.full_path ≠ pf.full_path) →
        (merge_patch_files fresh saved)[i]? = some pf) ∧
      (∀ s ∈ saved, s.full_path = pf.full_path →
        (∀ t ∈ saved, t.full_path = pf.full_path → t = s) →
        (merge_patch_files fresh saved)[i]? = some s) ∧
      (∀ out, (merge_patch_files fresh saved)[i]? = some out →
        out.full_path = pf.full_path ∧ (out = pf ∨ out ∈ saved))) ∧
    (∀ out ∈ merge_patch_files fresh saved,
      out ∈ fresh ∨ (out ∈ saved ∧ ∃ f ∈ fresh, f.full_path = out.full_path)) := by
  refine ⟨by simp [merge_patch_files], ?_, ?_⟩
  · intro i pf hi
    have hmi : (merge_patch_files fresh saved)[i]? =
        some (match override_paths saved pf.full_path with
          | some x => x
          | none => pf) := by
      unfold merge_patch_files
      rw [List.getElem?_map, hi]
      rfl
    refine ⟨?_, ?_, ?_⟩
    · intro hnone
      rw [hmi, override_paths_none hnone]
    · intro s hs hsp huniq
      rw [hmi, override_paths_unique hs hsp huniq]
    · intro out hout
      rw [hmi] at hout
      cases hov : override_paths saved pf.full_path with
      | none =>
        rw [hov] at hout
        simp only [Option.some.injEq] at hout
        exact ⟨by rw [← hout], Or.inl (by rw [← hout])⟩
      | some x =>
        rw [hov] at hout
        simp only [Option.some.injEq] at hout
        obtain ⟨hxm, hxp⟩ := override_paths_mem hov
        exact ⟨by rw [← hout]; exact hxp, Or.inr (by rw [← hout]; exact hxm)⟩
  · intro out hout
    unfold merge_patch_files at hout
    obtain ⟨f, hf, hfo⟩ := List.mem_map.mp hout
    cases hov : override_paths saved f.full_path with
    | none =>
      rw [hov] at hfo
      left
      simpa [← hfo] using hf
    | some x =>
      rw [hov] at hfo
      obtain ⟨hxm, hxp⟩ := override_paths_mem hov
      right
      refine ⟨by rw [← hfo]; exact hxm, f, hf, ?_⟩
      rw [← hfo]
      exact hxp.symm

/-- Witness for C5 at a concrete input: `wB` is overridden by a saved
record with the same path, `wA` passes through unchanged. -/
theorem C5_merge_pure_override_witness :
    (merge_patch_files [wA, wB]
        [⟨"patches/b.bin", "b.bin", "b.bin", false, some 7⟩])[0]? = some wA ∧
    (merge_patch_files [wA, wB]
        [⟨"patches/b.bin", "b.bin", "b.bin", false, some 7⟩])[1]?
      = some ⟨"patches/b.bin", "b.bin", "b.bin", false, some 7⟩ :=
  ⟨((C5_merge_pure_override [wA, wB]
        [⟨"patches/b.bin", "b.bin", "b.bin", false, some 7⟩]).2.1 0 wA
      (by decide)).1 (by decide),
    (((C5_merge_pure_override [wA, wB]
        [⟨"patches/b.bin", "b.bin", "b.bin", false, some 7⟩]).2.1 1 wB
      (by decide)).2.1 ⟨"patches/b.bin", "b.bin", "b.bin", false, some 7⟩
      (by decide) (by decide) (by decide))⟩

/-! ### Lemmas about the reporter -/

theorem lookupKey_appendAt (m : List (Int × List String)) (k : Int) (n : String) (q : Int) :
    lookupKey (appendAt m k n) q =
      if q = k then some (((lookupKey m k).getD []) ++ [n]) else lookupKey m q := by
  induction m with
  | nil =>
    by_cases hq : q = k
    · subst hq
      simp [appendAt, lookupKey]
    · have hq' : ¬ k = q := fun h => hq h.symm
      simp [appendAt, lookupKey, hq, hq']
  | cons e rest ih =>
    obtain ⟨k0, ns⟩ := e
    by_cases hk0 : k0 = k
    · subst hk0
      by_cases hq : q = k0
      · subst hq
        simp [appendAt, lookupKey]
      · have hq' : ¬ k0 = q := fun h => hq h.symm
        simp [appendAt, lookupKey, hq, hq']
    · by_cases hq : q = k0
      · subst hq
        have hqk : ¬ (q = k) := hk0
        simp [appendAt, lookupKey, hk0, hqk]
      · have hq' : ¬ k0 = q := fun h => hq h.symm
        simp only [appendAt, if_neg hk0, lookupKey, if_neg hq']
        exact ih

/-- Closed form of the fold of `get_preferred_index_patches` relative to an
arbitrary starting map, for a nonzero key. -/
theorem gp_lookup_aux (pfs : List PatchFile) (m : List (Int × List String)) (k : Int)
    (hk : k ≠ 0) :
    lookupKey (pfs.foldl
      (fun m pf =>
        match pf.preferred_index with
        | some k0 => if k0 = 0 then m else appendAt m k0 pf.name
        | none => m) m) k =
      match lookupKey m k with
      | some ns => some (ns ++ namesRequesting pfs k)
      | none =>
        if namesRequesting pfs k = [] then none else some (namesRequesting pfs k) := by
  induction pfs generalizing m with
  | nil =>
    cases h : lookupKey m k <;> simp [namesRequesting, h]
  | cons pf rest ih =>
    simp only [List.foldl_cons]
    cases hp : pf.preferred_index with
    | none =>
      have hnames : namesRequesting (pf :: rest) k = namesRequesting rest k := by
        simp [namesRequesting, List.filter_cons, hp]
      rw [hnames]
      exact ih m
    | some k0 =>
      by_cases h0 : k0 = 0
      · subst h0
        have hnames : namesRequesting (pf :: rest) k = namesRequesting rest k := by
          simp [namesRequesting, List.filter_cons, hp, Ne.symm hk]
        rw [hnames]
        simp only [if_pos rfl]
        exact ih m
      · simp only [if_neg h0]
        by_cases hkk : k0 = k
        · subst hkk
          have hnames : namesRequesting (pf :: rest) k0
              = pf.name :: namesRequesting rest k0 := by
            simp [namesRequesting, List.filter_cons, hp]
          rw [hnames, ih (appendAt m k0 pf.name), lookupKey_appendAt m k0 pf.name k0]
          simp only [if_pos rfl]
          cases h : lookupKey m k0 with
          | none => simp
          | some ns => simp [h]
        · have hkk' : ¬ (k0 = k) := hkk
          have hnames : namesRequesting (pf :: rest) k = namesRequesting rest k := by
            simp [namesRequesting, List.filter_cons, hp, hkk']
          rw [hnames, ih (appendAt m k0 pf.name), lookupKey_appendAt m k0 pf.name k]
          rw [if_neg (fun h => hkk h.symm)]

/-- Key 0 is never inserted by the fold of `get_preferred_index_patches`. -/
theorem gp_lookup_zero_aux (pfs : List PatchFile) (m : List (Int × List String)) :
    lookupKey (pfs.foldl
      (fun m pf =>
        match pf.preferred_index with
        | some k0 => if k0 = 0 then m else appendAt m k0 pf.name
        | none => m) m) 0 = lookupKey m 0 := by
  induction pfs generalizing m with
  | nil => rfl
  | cons pf rest ih =>
    simp only [List.foldl_cons]
    cases hp : pf.preferred_index with
    | none => exact ih m
    | some k0 =>
      by_cases h0 : k0 = 0
      · simp only [if_pos h0]
        exact ih m
      · simp only [if_neg h0]
        rw [ih (appendAt m k0 pf.name), lookupKey_appendAt m k0 pf.name 0]
        rw [if_neg (fun h => h0 h.symm)]

theorem pairwise_key_const {l : List (Char × Int × String)} {k : Int}
    (h : ∀ t ∈ l, t.2.1 = k) :
    List.Pairwise (fun (a b : Char × Int × String) => a.2.1 ≤ b.2.1) l := by
  induction l with
  | nil => exact List.Pairwise.nil
  | cons t rest ih =>
    refine List.Pairwise.cons ?_ (ih fun u hu => h u (List.mem_cons_of_mem _ hu))
    intro u hu
    rw [h t (List.mem_cons_self t rest), h u (List.mem_cons_of_mem _ hu)]

theorem pairwise_flatMap_key {keys : List Int} {f : Int → List (Char × Int × String)}
    (hk : List.Pairwise (· ≤ ·) keys)
    (hf : ∀ i t, t ∈ f i → t.2.1 = i) :
    List.Pairwise (fun (a b : Char × Int × String) => a.2.1 ≤ b.2.1) (keys.flatMap f) := by
  induction keys with
  | nil => simp
  | cons k ks ih =>
    obtain ⟨hrel, hpair⟩ := List.pairwise_cons.mp hk
    simp only [List.flatMap_cons]
    rw [List.pairwise_append]
    refine ⟨pairwise_key_const (fun t ht => hf k t ht), ih hpair, ?_⟩
    intro a ha b hb
    obtain ⟨k', hk', hb'⟩ := List.mem_flatMap.mp hb
    rw [hf k a ha, hf k' b hb']
    exact hrel k' hk'

theorem mem_preferred_index_strs {m : List (Int × List String)} {c : Char} {k : Int}
    {n : String} (h : (c, k, n) ∈ preferred_index_strs m) :
    ∃ ns, lookupKey m k = some ns ∧ c = (if 1 < ns.length then '*' else ' ') ∧ n ∈ ns := by
  unfold preferred_index_strs at h
  obtain ⟨i, hi, hmem⟩ := List.mem_flatMap.mp h
  cases hlk : lookupKey m i with
  | none => rw [hlk] at hmem; simp at hmem
  | some ns =>
    rw [hlk] at hmem
    obtain ⟨p, hp, heq⟩ := List.mem_map.mp hmem
    obtain ⟨hc, hik, hnp⟩ := Prod.mk.injEq .. ▸ heq
    exact ⟨ns, hlk, hc.symm, hp⟩

/-- C8 counterexample: `wE0` has its preference set (`preferred_slot = 0`),
yet the reporter's map is empty — entries preferring slot 0 are dropped by
the truthiness guard. -/
theorem C8_counterexample :
    wE0.preferred_index = some 0 ∧ get_preferred_index_patches [wE0] = [] :=
  ⟨rfl, rfl⟩

/-- C8 amended: the reporter's map contains exactly the entries whose
preference is set AND nonzero — an entry with `preferred_slot = 0` is
excluded, like one with no preference — keyed by slot with the requesting
display names in collection order; report lines come in ascending slot
order, and a line's conflict mark is `'*'` exactly when its slot has more
than one requester. -/
theorem C8_preferred_index_report (pfs : List PatchFile) :
    (∀ k : Int, k ≠ 0 →
      lookupKey (get_preferred_index_patches pfs) k =
        (if namesRequesting pfs k = [] then none else some (namesRequesting pfs k))) ∧
    lookupKey (get_preferred_index_patches pfs) 0 = none ∧
    List.Pairwise (fun (a b : Char × Int × String) => a.2.1 ≤ b.2.1)
      (preferred_index_strs (get_preferred_index_patches pfs)) ∧
    (∀ c k n, (c, k, n) ∈ preferred_index_strs (get_preferred_index_patches pfs) →
      (c = '*' ↔ 1 < (namesRequesting pfs k).length) ∧ n ∈ namesRequesting pfs k) := by
  have hchars : ('*' : Char) ≠ ' ' := by decide
  have hmain : ∀ k : Int, k ≠ 0 →
      lookupKey (get_preferred_index_patches pfs) k =
        (if namesRequesting pfs k = [] then none else some (namesRequesting pfs k)) := by
    intro k hk
    unfold get_preferred_index_patches
    rw [gp_lookup_aux pfs [] k hk]
    rfl
  have hzero : lookupKey (get_preferred_index_patches pfs) 0 = none := by
    unfold get_preferred_index_patches
    rw [gp_lookup_zero_aux pfs []]
    rfl
  refine ⟨hmain, hzero, ?_, ?_⟩
  · unfold preferred_index_strs
    refine pairwise_flatMap_key ?_ ?_
    · exact List.sorted_insertionSort _ _
    · intro i t ht
      cases hlk : lookupKey (get_preferred_index_patches pfs) i with
      | none => rw [hlk] at ht; simp at ht
      | some ns =>
        rw [hlk] at ht
        obtain ⟨p, hp, heq⟩ := List.mem_map.mp ht
        rw [← heq]
  · intro c k n hmem
    obtain ⟨ns, hlk, hc, hn⟩ := mem_preferred_index_strs hmem
    by_cases hk : k = 0
    · rw [hk, hzero] at hlk
      simp at hlk
    · rw [hmain k hk] at hlk
      by_cases hnil : namesRequesting pfs k = []
      · rw [if_pos hnil] at hlk
        simp at hlk
      · rw [if_neg hnil] at hlk
        have hns : ns = namesRequesting pfs k := (Option.some.inj hlk).symm
        subst hns
        constructor
        · constructor
          · intro hcs
            by_contra hlen
            rw [if_neg hlen] at hc
            rw [hcs] at hc
            exact hchars hc
          · intro hlen
            rw [if_pos hlen] at hc
            exact hc
        · exact hn

/-- Witness for C8's amended statement at a concrete input: one entry
pinned to slot 60 shows up in the map under key 60. -/
theorem C8_preferred_index_report_witness :
    lookupKey (get_preferred_index_patches [wC60]) 60 =
      (if namesRequesting [wC60] 60 = [] then none
       else some (namesRequesting [wC60] 60)) :=
  (C8_preferred_index_report [wC60]).1 60 (by decide)

/-! ### Round trip of the persisted config -/

theorem patchFileOfRecord_config (pf : PatchFile) :
    patchFileOfRecord (PatchFile.config pf) = some pf := by
  obtain ⟨fp, fn, nm, a, p⟩ := pf
  cases p <;> rfl

/-- C9: deserialising the configuration produced by serialising any
collection of records yields the same collection, field for field, in the
same order. -/
theorem C9_config_roundtrip (pfs : List PatchFile) :
    get_patch_files_from_config (create_config pfs) = some pfs := by
  induction pfs with
  | nil => rfl
  | cons pf rest ih =>
    simp only [create_config, List.map_cons] at *
    simp only [get_patch_files_from_config, List.mapM_cons] at *
    rw [patchFileOfRecord_config]
    simp only [Option.bind_eq_bind, Option.some_bind] at *
    rw [ih]
    rfl

/-! ### Contents invariants of the allocator (for C10) -/

theorem set_filterMap_perm (pf : PatchFile) {slots : List (Option PatchFile)} {j : Nat}
    (h : slots[j]? = some none) :
    List.Perm ((slots.set j (some pf)).filterMap id) (pf :: slots.filterMap id) := by
  induction slots generalizing j with
  | nil => simp at h
  | cons c rest ih =>
    cases j with
    | zero =>
      simp only [List.getElem?_cons_zero, Option.some.injEq] at h
      subst h
      simp [List.set, List.filterMap_cons]
    | succ j' =>
      simp only [List.getElem?_cons_succ] at h
      cases c with
      | none =>
        simp only [List.set, List.filterMap_cons]
        exact ih h
      | some x =>
        simp only [List.set, List.filterMap_cons]
        refine List.Perm.trans (List.Perm.cons x (ih h)) ?_
        exact List.Perm.swap pf x _

theorem fillLoop_contents_subperm (slots : List (Option PatchFile)) (q : List PatchFile) :
    List.Subperm ((fillLoop slots q).filterMap id) (slots.filterMap id ++ q) := by
  induction slots generalizing q with
  | nil => cases q <;> simp [fillLoop, List.nil_subperm]
  | cons c rest ih =>
    cases q with
    | nil =>
      simp only [fillLoop, List.append_nil]
      exact (List.Perm.refl _).subperm
    | cons p q' =>
      cases c with
      | none =>
        simp only [fillLoop, List.filterMap_cons]
        refine List.Subperm.trans ((List.subperm_cons p).mpr (ih q')) ?_
        exact (List.perm_middle.symm).subperm
      | some x =>
        simp only [fillLoop, List.filterMap_cons]
        have := (List.subperm_cons x).mpr (ih (p :: q'))
        simpa using this

theorem placeLoop_contents_subperm {v : Bool} {l : List PatchFile} {st st' : AllocState}
    (h : placeLoop v l st = .ok st') :
    List.Subperm (st'.patch_order.filterMap id ++ st'.unordered_patches)
      ((st.patch_order.filterMap id ++ st.unordered_patches)
        ++ l.filter (fun pf => pf.active)) := by
  induction l generalizing st with
  | nil =>
    simp only [placeLoop, Except.ok.injEq] at h
    rw [← h]
    simp only [List.filter_nil, List.append_nil]
    exact (List.Perm.refl _).subperm
  | cons pf0 rest ih =>
    simp only [placeLoop] at h
    split at h
    · simp only [Except.ok.injEq] at h
      rw [← h]
      exact (List.sublist_append_left _ _).subperm
    · split at h
      · next hina =>
        split at h
        · simp at h
        · have hfeq : (pf0 :: rest).filter (fun pf => pf.active)
              = rest.filter (fun pf => pf.active) := by
            simp [List.filter_cons, hina]
          rw [hfeq]
          exact ih h
      · next hact =>
        have hactT : pf0.active = true := by
          revert hact; cases pf0.active <;> simp
        have hfeq : (pf0 :: rest).filter (fun pf => pf.active)
            = pf0 :: rest.filter (fun pf => pf.active) := by
          simp [List.filter_cons, hactT]
        rw [hfeq]
        split at h
        · split at h
          · simp at h
          · next j0 hj0 =>
            split at h
            · next hempty =>
              have hperm := set_filterMap_perm pf0 hempty
              refine (ih h).trans (List.Perm.subperm ?_)
              have hp1 : List.Perm
                  (((st.patch_order.set j0 (some pf0)).filterMap id
                      ++ st.unordered_patches)
                    ++ rest.filter (fun pf => pf.active))
                  (((pf0 :: st.patch_order.filterMap id) ++ st.unordered_patches)
                    ++ rest.filter (fun pf => pf.active)) :=
                (hperm.append_right _).append_right _
              have hp2 : ((pf0 :: st.patch_order.filterMap id) ++ st.unordered_patches)
                    ++ rest.filter (fun pf => pf.active)
                  = pf0 :: ((st.patch_order.filterMap id ++ st.unordered_patches)
                    ++ rest.filter (fun pf => pf.active)) := by
                simp
              have hp3 : List.Perm
                  (pf0 :: ((st.patch_order.filterMap id ++ st.unordered_patches)
                    ++ rest.filter (fun pf => pf.active)))
                  ((st.patch_order.filterMap id ++ st.unordered_patches)
                    ++ pf0 :: rest.filter (fun pf => pf.active)) :=
                List.perm_middle.symm
              exact hp1.trans (hp2 ▸ hp3)
            · refine (ih h).trans (List.Perm.subperm ?_)
              have heq : (st.patch_order.filterMap id
                      ++ (st.unordered_patches ++ [pf0]))
                    ++ rest.filter (fun pf => pf.active)
                  = (st.patch_order.filterMap id ++ st.unordered_patches)
                      ++ ([pf0] ++ rest.filter (fun pf => pf.active)) := by
                simp [List.append_assoc]
              rw [heq]
              exact List.Perm.refl _
        · refine (ih h).trans (List.Perm.subperm ?_)
          have heq : (st.patch_order.filterMap id
                  ++ (st.unordered_patches ++ [pf0]))
                ++ rest.filter (fun pf => pf.active)
              = (st.patch_order.filterMap id ++ st.unordered_patches)
                  ++ ([pf0] ++ rest.filter (fun pf => pf.active)) := by
            simp [List.append_assoc]
          rw [heq]
          exact List.Perm.refl _

theorem mem_filterMap_of_getElem {l : List (Option PatchFile)} {i : Nat} {pf : PatchFile}
    (h : l[i]? = some (some pf)) : pf ∈ l.filterMap id :=
  List.mem_filterMap.mpr ⟨some pf, List.getElem?_mem h, rfl⟩

theorem two_le_count_filterMap {l : List (Option PatchFile)} {i j : Nat} {pf : PatchFile}
    (hij : i < j) (hi : l[i]? = some (some pf)) (hj : l[j]? = some (some pf)) :
    2 ≤ (l.filterMap id).count pf := by
  induction l generalizing i j with
  | nil => simp at hi
  | cons c rest ih =>
    cases j with
    | zero => omega
    | succ j' =>
      simp only [List.getElem?_cons_succ] at hj
      cases i with
      | zero =>
        simp only [List.getElem?_cons_zero, Option.some.injEq] at hi
        subst hi
        have hmem : pf ∈ rest.filterMap id := mem_filterMap_of_getElem hj
        have hpos : 0 < (rest.filterMap id).count pf := List.count_pos_iff.mpr hmem
        have hcc : ((some pf :: rest).filterMap id).count pf
            = (rest.filterMap id).count pf + 1 := by
          simp [List.filterMap_cons, List.count_cons]
        rw [hcc]
        omega
      | succ i' =>
        simp only [List.getElem?_cons_succ] at hi
        have h2 := ih (by omega) hi hj
        cases c with
        | none => simpa [List.filterMap_cons] using h2
        | some x =>
          simp only [List.filterMap_cons, id_eq]
          have hsub : (rest.filterMap id).Sublist (x :: rest.filterMap id) :=
            List.sublist_cons_self x _
          have h3 := hsub.count_le pf
          omega

/-- C10: every filled cell of an allocated table holds an active entry
taken from the input list, and distinct filled cells hold distinct entries
(for an input without duplicate records). -/
theorem C10_table_invariants (entries : List PatchFile) (v : Bool)
    (slots : List (Option PatchFile)) (w : Bool)
    (hrange : ∀ F ∈ entries, ∀ m, F.preferred_index = some m → 0 ≤ m ∧ m < 64)
    (hnodup : entries.Nodup)
    (hok : copy_files entries v = .ok (slots, w)) :
    (∀ (i : Nat) (pf : PatchFile), slots[i]? = some (some pf) →
      pf ∈ entries ∧ pf.active = true) ∧
    (∀ (i j : Nat) (pf : PatchFile), slots[i]? = some (some pf) →
      slots[j]? = some (some pf) → i = j) := by
  unfold copy_files at hok
  cases hpl : placeLoop v entries initState with
  | error e => rw [hpl] at hok; simp at hok
  | ok st =>
    rw [hpl] at hok
    simp only [Except.ok.injEq, Prod.mk.injEq] at hok
    obtain ⟨hslots, hw⟩ := hok
    have hsub1 := placeLoop_contents_subperm hpl
    have hinit : initState.patch_order.filterMap id ++ initState.unordered_patches
        = ([] : List PatchFile) := by
      simp [initState]
    rw [hinit, List.nil_append] at hsub1
    have hsub2 := fillLoop_contents_subperm st.patch_order st.unordered_patches
    rw [hslots] at hsub2
    have hsub : List.Subperm (slots.filterMap id)
        (entries.filter (fun pf => pf.active)) := hsub2.trans hsub1
    have hmem : ∀ (i : Nat) (pf : PatchFile), slots[i]? = some (some pf) →
        pf ∈ entries ∧ pf.active = true := by
      intro i pf h
      have h1 : pf ∈ entries.filter (fun pf => pf.active) :=
        hsub.subset (mem_filterMap_of_getElem h)
      have h2 := List.mem_filter.mp h1
      exact ⟨h2.1, by simpa using h2.2⟩
    refine ⟨hmem, ?_⟩
    intro i j pf hi hj
    by_contra hne
    have hcount1 : (entries.filter (fun pf => pf.active)).count pf ≤ 1 :=
      List.nodup_iff_count_le_one.mp (hnodup.filter _) pf
    have h2 : 2 ≤ (slots.filterMap id).count pf := by
      rcases Nat.lt_or_ge i j with hij | hij
      · exact two_le_count_filterMap hij hi hj
      · have hij' : j < i := by omega
        exact two_le_count_filterMap hij' hj hi
    have hle := hsub.count_le pf
    omega

/-- Witness for C10 at a concrete input: the entry found in cell 60 of the
table allocated from `[wA, wC60]` is an active member of the input. -/
theorem C10_table_invariants_witness :
    wC60 ∈ [wA, wC60] ∧ wC60.active = true :=
  (C10_table_invariants [wA, wC60] false
      (fillLoop ((List.replicate page_size none).set 60 (some wC60)) [wA]) false
      (by decide) (by decide) (by rfl)).1 60 wC60 (by decide)
